import Mathlib

/-!
Shallow embedding of the redis-collections List type
(src/redis_collections/lists.py) and proofs about its specification.

The remote Redis list is modelled as a Lean `List V` (serialization is the
identity: the pickle codec is an external, injective collaborator).  The
write-back cache, a Python dict from absolute index to value, is modelled as
an association list `List (Int × V)` with dict-style lookup and update.  The
pipeline and transaction machinery of the base class is not under src/; per
the specification it executes the body against a consistent snapshot of the
remote list, so remote commands are modelled as immediate state passing.
Python exceptions become an `Except` error code; a raised exception carries
no state, matching the fact that in the source every local mutation happens
only after the remote commands that might fail.
-/

set_option linter.unusedVariables false

namespace RedisList

/-- Error conditions surfaced by the list operations: IndexError for
out-of-range access, ValueError for a zero slice step or a failed search,
NotImplementedError for unsupported slice steps, and ResponseError for a
remote command rejected by the store (for example a push with no values). -/
inductive Err where
  | indexError
  | valueError
  | notImplemented
  | responseError
  deriving DecidableEq, Repr

/-- A Python slice object: each of start, stop, step may be absent. -/
structure Slice where
  start : Option Int
  stop : Option Int
  step : Option Int
  deriving DecidableEq, Repr

/-- The state owned by one List instance: the remote list (store), the
write-back cache, and the writeback flag. -/
structure LState (V : Type) where
  store : List V
  cache : List (Int × V)
  writeback : Bool
  deriving DecidableEq, Repr

/-- Redis index conversion: a negative index counts from the end. -/
def redisIdx (n : Nat) (i : Int) : Int :=
  if i < 0 then i + n else i

/-- Redis LINDEX: value at the (possibly negative) index, absent if out of
range. -/
def lindex (l : List V) (i : Int) : Option V :=
  let j := redisIdx l.length i
  if 0 ≤ j ∧ j < (l.length : Int) then l[j.toNat]? else none

/-- Redis LSET: overwrite the value at the index, failing if out of range. -/
def lset (l : List V) (i : Int) (v : V) : Option (List V) :=
  let j := redisIdx l.length i
  if 0 ≤ j ∧ j < (l.length : Int) then some (l.set j.toNat v) else none

/-- Redis LRANGE with inclusive bounds: negative offsets count from the end,
the start is clamped at zero, a start past the end or past the stop gives the
empty list, and the stop is capped at the last element. -/
def lrange (l : List V) (start stop : Int) : List V :=
  let n : Int := l.length
  let s0 := redisIdx l.length start
  let e := redisIdx l.length stop
  let s := max s0 0
  if e < s ∨ n ≤ s then [] else (l.drop s.toNat).take (e - s + 1).toNat

/-- Redis LTRIM keeps exactly the LRANGE range. -/
def ltrim (l : List V) (start stop : Int) : List V :=
  lrange l start stop

/-- Redis LREM with count 1: remove the first occurrence of the value. -/
def lremFirst [DecidableEq V] : List V → V → List V
  | [], _ => []
  | a :: t, v => if a = v then t else a :: lremFirst t v

/-- Python dict lookup on the cache association list. -/
def cacheGet : List (Int × V) → Int → Option V
  | [], _ => none
  | p :: rest, i => if p.1 = i then some p.2 else cacheGet rest i

/-- Python dict assignment on the cache association list: the new entry
replaces any entry with the same key. -/
def cacheSet (c : List (Int × V)) (k : Int) (v : V) : List (Int × V) :=
  (k, v) :: c.filter (fun q => q.1 != k)

/-- List._normalize_index: a negative index has the current length added;
there is no bounds clamping. -/
def normalizeIndex (n : Nat) (index : Int) : Int :=
  if 0 ≤ index then index else (n : Int) + index

/-- List._normalize_slice: fails on a zero step; clamps start and stop
direction-aware, then remaps a backward slice to a forward half-open range.
Returns (start, stop, step magnitude, forward). -/
def normalizeSlice (n : Nat) (sl : Slice) : Option (Int × Int × Nat × Bool) :=
  if sl.step = some 0 then none
  else
    let step := sl.step.getD 1
    let forward := 0 < step
    let stepAbs := step.natAbs
    let start : Int :=
      match sl.start with
      | none => if forward then 0 else (n : Int) - 1
      | some st => if st < 0 then max ((n : Int) + st) 0 else min st (n : Int)
    let stop : Int :=
      match sl.stop with
      | none => if forward then (n : Int) else -1
      | some sp => if sp < 0 then max ((n : Int) + sp) 0 else min sp (n : Int)
    if forward then some (start, stop, stepAbs, forward)
    else some (min (stop + 1) (n : Int), min (start + 1) (n : Int), stepAbs, forward)

/-- List._pop_left: LPOP, read through the cache at index 0, and shift every
other cached index down by one when writeback is on. -/
def popLeft (s : LState V) : Except Err (V × LState V) :=
  match s.store with
  | [] => Except.error Err.indexError
  | v :: rest =>
    let value := (cacheGet s.cache 0).getD v
    let cache2 :=
      if s.writeback then
        (s.cache.filter (fun q => q.1 != 0)).map (fun q => (q.1 - 1, q.2))
      else s.cache
    Except.ok (value, { store := rest, cache := cache2, writeback := s.writeback })

/-- List._pop_right: check emptiness, RPOP, read through the cache at the
last index, and drop that cache entry when writeback is on. -/
def popRight (s : LState V) : Except Err (V × LState V) :=
  let n := s.store.length
  let cacheIndex := normalizeIndex n (-1)
  if n = 0 then Except.error Err.indexError
  else
    match s.store.getLast? with
    | none => Except.error Err.indexError
    | some v0 =>
      let value := if s.writeback then (cacheGet s.cache cacheIndex).getD v0 else v0
      let cache2 :=
        if s.writeback then s.cache.filter (fun q => q.1 != cacheIndex) else s.cache
      Except.ok (value, { store := s.store.dropLast, cache := cache2, writeback := s.writeback })

/-- Cache renumbering after a removal at position p: entries below p are kept,
the entry at p is dropped, entries above p shift down by one. -/
def renumberDel (c : List (Int × V)) (p : Int) : List (Int × V) :=
  c.filterMap (fun q =>
    if q.1 < p then some q
    else if p < q.1 then some (q.1 - 1, q.2)
    else none)

/-- Cache renumbering before an insertion at position p: entries below p are
kept, entries at or above p shift up by one. -/
def renumberIns (c : List (Int × V)) (p : Int) : List (Int × V) :=
  c.map (fun q => if q.1 < p then q else (q.1 + 1, q.2))

/-- List._pop_middle: bounds check, fetch the value, overwrite the position
with the sentinel marker, remove the first occurrence of the marker, and
renumber the cache when writeback is on. -/
def popMiddle [DecidableEq V] (marker : V) (s : LState V) (index : Int) :
    Except Err (V × LState V) :=
  let n := s.store.length
  let cacheIndex := normalizeIndex n index
  if cacheIndex < 0 ∨ (n : Int) ≤ cacheIndex then Except.error Err.indexError
  else
    match lindex s.store index with
    | none => Except.error Err.indexError
    | some v0 =>
      match lset s.store index marker with
      | none => Except.error Err.indexError
      | some st1 =>
        let st2 := lremFirst st1 marker
        let value := if s.writeback then (cacheGet s.cache cacheIndex).getD v0 else v0
        let cache2 := if s.writeback then renumberDel s.cache cacheIndex else s.cache
        Except.ok (value, { store := st2, cache := cache2, writeback := s.writeback })

/-- List.pop and scalar List.__delitem__: index 0 pops on the left, index -1
pops on the right, anything else is a middle pop via the sentinel marker. -/
def popAt [DecidableEq V] (marker : V) (s : LState V) (index : Int) :
    Except Err (V × LState V) :=
  if index = 0 then popLeft s
  else if index = -1 then popRight s
  else popMiddle marker s index

/-- List._sync_helper, store part: LSET each cached entry back to its
position.  An out-of-range entry surfaces the remote error. -/
def flushStore : List V → List (Int × V) → Except Err (List V)
  | st, [] => Except.ok st
  | st, p :: rest =>
    match lset st p.1 p.2 with
    | none => Except.error Err.indexError
    | some st2 => flushStore st2 rest

/-- List._sync_helper: write every cached entry back, then clear the cache. -/
def syncHelper (s : LState V) : Except Err (LState V) :=
  match flushStore s.store s.cache with
  | Except.error e => Except.error e
  | Except.ok st => Except.ok { store := st, cache := [], writeback := s.writeback }

/-- List.sync: run the sync helper inside one transaction. -/
def sync (s : LState V) : Except Err (LState V) :=
  syncHelper s

/-- List.clear: delete the remote key; clear the cache when writeback is on. -/
def clear (s : LState V) : LState V :=
  { store := [], cache := if s.writeback then [] else s.cache, writeback := s.writeback }

/-- List._del_slice: steps are unsupported; an empty normalized range is a
no-op; the cache is flushed before any structural change; then a full cover
clears, a one-boundary range trims, and an interior range rebuilds the list
from the two fetched remainders. -/
def delSlice (s : LState V) (sl : Slice) : Except Err (LState V) :=
  if sl.step ≠ none then Except.error Err.notImplemented
  else
    match normalizeSlice s.store.length sl with
    | none => Except.error Err.valueError
    | some (start, stop, _, _) =>
      if start = stop then Except.ok s
      else
        match (if s.writeback then syncHelper s else Except.ok s) with
        | Except.error e => Except.error e
        | Except.ok s1 =>
          let n : Int := s.store.length
          if start = 0 ∧ stop = n then Except.ok (clear s1)
          else if start = 0 then
            Except.ok { s1 with store := ltrim s1.store (stop + 1) (-1) }
          else if stop = n then
            Except.ok { s1 with store := ltrim s1.store 0 (start - 1) }
          else
            let leftValues := lrange s1.store 0 (max (start - 2) 0)
            let rightValues := lrange s1.store (stop + 1) (-1)
            Except.ok { s1 with store := leftValues ++ rightValues }

/-- List._set_slice: steps are unsupported; the cache is flushed first; the
list is rebuilt as left remainder, new values, right remainder.  An RPUSH
with no values at all is rejected by the store. -/
def setSlice (s : LState V) (sl : Slice) (value : List V) : Except Err (LState V) :=
  if sl.step ≠ none then Except.error Err.notImplemented
  else
    match normalizeSlice s.store.length sl with
    | none => Except.error Err.valueError
    | some (start, stop, _, _) =>
      match (if s.writeback then syncHelper s else Except.ok s) with
      | Except.error e => Except.error e
      | Except.ok s1 =>
        let n : Int := s.store.length
        let leftValues := if start = 0 then [] else lrange s1.store 0 (start - 1)
        let rightValues := if stop = n then [] else lrange s1.store stop (-1)
        match leftValues ++ value ++ rightValues with
        | [] => Except.error Err.responseError
        | allValues => Except.ok { s1 with store := allValues }

/-- Sub-sampling used for islice(ret, None, None, step): keep the elements
whose position is a multiple of the step. -/
def everyNth (l : List V) (k : Nat) : List V :=
  (l.enum.filter (fun p => p.1 % k == 0)).map Prod.snd

/-- List._get_slice: normalize, fetch the forward range, overlay the cache by
absolute position, reverse for a backward slice, then sub-sample by the step
magnitude. -/
def getSlice (s : LState V) (sl : Slice) : Except Err (List V) :=
  match normalizeSlice s.store.length sl with
  | none => Except.error Err.valueError
  | some (start, stop, stepAbs, forward) =>
    if start = stop then Except.ok []
    else
      let redisValues := lrange s.store start (max (stop - 1) 0)
      let ret := redisValues.enum.map (fun p => (cacheGet s.cache (start + p.1)).getD p.2)
      let ret := if forward then ret else ret.reverse
      let ret := if stepAbs ≠ 1 then everyNth ret stepAbs else ret
      Except.ok ret

/-- Scalar List.__getitem__: without writeback a single LINDEX; with
writeback a bounds check, then cache hit or fetch-and-cache. -/
def getitem (s : LState V) (index : Int) : Except Err (V × LState V) :=
  if s.writeback = false then
    match lindex s.store index with
    | none => Except.error Err.indexError
    | some v => Except.ok (v, s)
  else
    let n := s.store.length
    let cacheIndex := normalizeIndex n index
    if cacheIndex < 0 ∨ (n : Int) ≤ cacheIndex then Except.error Err.indexError
    else
      match cacheGet s.cache cacheIndex with
      | some v => Except.ok (v, s)
      | none =>
        match lindex s.store index with
        | none => Except.error Err.indexError
        | some v => Except.ok (v, { s with cache := cacheSet s.cache cacheIndex v })

/-- Scalar List.__setitem__: LSET the position; a rejected overwrite raises
IndexError; the cache entry is written only after the remote write, and only
when writeback is on.  The state is returned even on error. -/
def setitem (s : LState V) (index : Int) (value : V) : Except Err Unit × LState V :=
  let n := s.store.length
  let cacheIndex := normalizeIndex n index
  match lset s.store index value with
  | none => (Except.error Err.indexError, s)
  | some st =>
    (Except.ok (),
      { s with
          store := st
          cache := if s.writeback then cacheSet s.cache cacheIndex value else s.cache })

/-- List.append: RPUSH, then cache the new tail index (new length - 1) when
writeback is on. -/
def append (s : LState V) (value : V) : LState V :=
  let lenSelf : Int := (s.store.length : Int) + 1
  { store := s.store ++ [value],
    cache := if s.writeback then cacheSet s.cache (lenSelf - 1) value else s.cache,
    writeback := s.writeback }

/-- List.insert: index 0 pushes on the left and shifts the whole cache up;
index -1 pushes on the right and caches at the new last index; any other
index fetches the remainder from the normalized position, trims, pushes the
value and the remainder back, and renumbers the cache by the insert rule. -/
def insert (s : LState V) (index : Int) (value : V) : LState V :=
  if index = 0 then
    { store := value :: s.store,
      cache :=
        if s.writeback then
          cacheSet (s.cache.map (fun q => (q.1 + 1, q.2))) 0 value
        else s.cache,
      writeback := s.writeback }
  else if index = -1 then
    let lenSelf : Int := (s.store.length : Int) + 1
    { store := s.store ++ [value],
      cache := if s.writeback then cacheSet s.cache (lenSelf + index) value else s.cache,
      writeback := s.writeback }
  else
    let cacheIndex := normalizeIndex s.store.length index
    let rightValues := lrange s.store cacheIndex (-1)
    let kept := ltrim s.store 0 (cacheIndex - 1)
    { store := kept ++ value :: rightValues,
      cache :=
        if s.writeback then
          cacheSet (renumberIns s.cache cacheIndex) cacheIndex value
        else s.cache,
      writeback := s.writeback }

/-- Cache update in List.extend: assign the appended values at consecutive
indices starting from the old length. -/
def extendCache : List (Int × V) → Int → List V → List (Int × V)
  | c, _, [] => c
  | c, k, v :: t => extendCache (cacheSet c k v) (k + 1) t

/-- List.extend with a local iterable: RPUSH all values (the store rejects a
push with no values), then cache the appended range when writeback is on. -/
def extend (s : LState V) (values : List V) : Except Err (LState V) :=
  match values with
  | [] => Except.error Err.responseError
  | _ =>
    let lenSelf : Int := (s.store.length : Int) + values.length
    Except.ok
      { store := s.store ++ values,
        cache :=
          if s.writeback then
            extendCache s.cache (lenSelf - (values.length : Int)) values
          else s.cache,
        writeback := s.writeback }

/-- The cache-aware contents seen by List.__iter__, paired with absolute
positions starting from k. -/
def effFrom (c : List (Int × V)) : Nat → List V → List (Nat × V)
  | _, [] => []
  | k, v :: t => (k, (cacheGet c (k : Int)).getD v) :: effFrom c (k + 1) t

/-- Python falsy defaulting as in start-or-0 and stop-or-length: None and 0
both give the default. -/
def pyOr (x : Option Int) (d : Int) : Int :=
  match x with
  | none => d
  | some v => if v = 0 then d else v

/-- The scan loop of List.index: skip matches below the start bound, stop at
the first match past the stop bound, return the first match inside. -/
def indexScan [DecidableEq V] (value : V) (normalStart normalStop : Int) :
    List (Nat × V) → Except Err Nat
  | [] => Except.error Err.valueError
  | p :: rest =>
    if p.2 = value then
      if (p.1 : Int) < normalStart then indexScan value normalStart normalStop rest
      else if normalStop ≤ (p.1 : Int) then Except.error Err.valueError
      else Except.ok p.1
    else indexScan value normalStart normalStop rest

/-- List.index: normalize the falsy-defaulted bounds against the current
length and scan the cache-aware contents. -/
def indexOp [DecidableEq V] (s : LState V) (value : V) (start stop : Option Int) :
    Except Err Nat :=
  let n := s.store.length
  let normalStart := normalizeIndex n (pyOr start 0)
  let normalStop := normalizeIndex n (pyOr stop (n : Int))
  indexScan value normalStart normalStop (effFrom s.cache 0 s.store)


/-- The absolute position at which List.insert places the new value: 0 for a
head push, the old length for the tail push of index -1, and the normalized
index otherwise. -/
def insertPos (s : LState V) (index : Int) : Int :=
  if index = 0 then 0
  else if index = -1 then (s.store.length : Int)
  else normalizeIndex s.store.length index

/-- Reference form of the amended List.index contract: normalize the
falsy-defaulted bounds against the current length, then return the smallest
absolute position whose cache-aware value equals the argument and lies inside
the half-open normalized range, failing with the not-found condition when no
such position exists. -/
def indexSpec [DecidableEq V] (s : LState V) (value : V) (start stop : Option Int) :
    Except Err Nat :=
  let n := s.store.length
  let normalStart := normalizeIndex n (pyOr start 0)
  let normalStop := normalizeIndex n (pyOr stop (n : Int))
  match (effFrom s.cache 0 s.store).find? (fun p =>
      p.2 == value && decide (normalStart ≤ (p.1 : Int)) &&
        decide ((p.1 : Int) < normalStop)) with
  | some p => Except.ok p.1
  | none => Except.error Err.valueError

/-- Well-formedness of the write-back cache: when writeback is off the cache
is empty (it is only ever written in writeback mode), and every cached key is
a valid absolute index into the current remote length, where it denotes the
authoritative overlay value for that position. -/
def WF (s : LState V) : Prop :=
  (s.writeback = false → s.cache = []) ∧
  ∀ q ∈ s.cache, 0 ≤ q.1 ∧ q.1 < (s.store.length : Int)

instance decidableWF [DecidableEq V] (s : LState V) : Decidable (WF s) := by
  unfold WF
  infer_instance

/-- Precondition on inserts for the amended C8: the normalized absolute
position must lie within [0, length]. -/
def insertPre (s : LState V) (i : Int) : Prop :=
  i = 0 ∨ i = -1 ∨
    (0 ≤ normalizeIndex s.store.length i ∧
      normalizeIndex s.store.length i ≤ (s.store.length : Int))

/-- One public operation of the List facade. -/
inductive Op (V : Type) where
  | appendV (v : V)
  | insertV (i : Int) (v : V)
  | setIdx (i : Int) (v : V)
  | getIdx (i : Int)
  | popIdx (i : Int)
  | getSliceV (sl : Slice)
  | setSliceV (sl : Slice) (vs : List V)
  | delSliceV (sl : Slice)
  | extendV (vs : List V)
  | syncV
  | clearV

/-- Apply one public facade operation to a state, discarding any value it
returns and keeping the resulting state. -/
def applyOp [DecidableEq V] (marker : V) : Op V → LState V → Except Err (LState V)
  | Op.appendV v, s => Except.ok (append s v)
  | Op.insertV i v, s => Except.ok (insert s i v)
  | Op.setIdx i v, s =>
    match setitem s i v with
    | (Except.ok _, s2) => Except.ok s2
    | (Except.error e, _) => Except.error e
  | Op.getIdx i, s => (getitem s i).map Prod.snd
  | Op.popIdx i, s => (popAt marker s i).map Prod.snd
  | Op.getSliceV sl, s => (getSlice s sl).map (fun _ => s)
  | Op.setSliceV sl vs, s => setSlice s sl vs
  | Op.delSliceV sl, s => delSlice s sl
  | Op.extendV vs, s => extend s vs
  | Op.syncV, s => sync s
  | Op.clearV, s => Except.ok (clear s)

/-- Per-operation precondition for the amended C8. -/
def preOp (op : Op V) (s : LState V) : Prop :=
  match op with
  | Op.insertV i _ => insertPre s i
  | _ => True

/-! ### Basic lemmas about the primitives -/

theorem redisIdx_eq_normalizeIndex (n : Nat) (i : Int) :
    redisIdx n i = normalizeIndex n i := by
  unfold redisIdx normalizeIndex
  split <;> split <;> omega

theorem cacheGet_cacheSet_self (c : List (Int × V)) (k : Int) (v : V) :
    cacheGet (cacheSet c k v) k = some v := by
  simp [cacheGet, cacheSet]

theorem cacheGet_filter_ne (j k : Int) (h : j ≠ k) :
    ∀ c : List (Int × V), cacheGet (c.filter (fun q => q.1 != k)) j = cacheGet c j := by
  intro c
  induction c with
  | nil => rfl
  | cons p rest ih =>
    rcases eq_or_ne p.1 k with hp | hp
    · rw [List.filter_cons_of_neg (by simp [hp]), ih, cacheGet,
        if_neg (by rw [hp]; exact fun hh => h hh.symm)]
    · rw [List.filter_cons_of_pos (by simp [hp]), cacheGet, cacheGet]
      split <;> [rfl; exact ih]

theorem cacheGet_cacheSet_ne (c : List (Int × V)) (j k : Int) (v : V) (h : j ≠ k) :
    cacheGet (cacheSet c k v) j = cacheGet c j := by
  rw [cacheSet, cacheGet, if_neg (fun hh => h hh.symm), cacheGet_filter_ne j k h]

theorem cacheGet_eq_none (c : List (Int × V)) (j : Int) (h : ∀ q ∈ c, q.1 ≠ j) :
    cacheGet c j = none := by
  induction c with
  | nil => rfl
  | cons p rest ih =>
    rw [cacheGet, if_neg (h p (List.mem_cons_self p rest))]
    exact ih (fun q hq => h q (List.mem_cons_of_mem p hq))

theorem flushStore_error_eq (e : Err) :
    ∀ (c : List (Int × V)) (st : List V),
      flushStore st c = Except.error e → e = Err.indexError := by
  intro c
  induction c with
  | nil => intro st h; simp [flushStore] at h
  | cons p rest ih =>
    intro st h
    rw [flushStore] at h
    cases hl : lset st p.1 p.2 with
    | none => rw [hl] at h; injection h with h2; exact h2.symm
    | some st2 => rw [hl] at h; exact ih st2 h

theorem syncHelper_error_eq (s : LState V) (e : Err)
    (h : syncHelper s = Except.error e) : e = Err.indexError := by
  unfold syncHelper at h
  cases hf : flushStore s.store s.cache with
  | error e2 =>
    rw [hf] at h
    injection h with h2
    exact h2 ▸ flushStore_error_eq e2 s.cache s.store hf
  | ok st => rw [hf] at h; exact absurd h (by simp)

theorem normalizeSlice_eq_none_iff (n : Nat) (sl : Slice) :
    normalizeSlice n sl = none ↔ sl.step = some 0 := by
  constructor
  · intro hn
    by_contra h
    simp only [normalizeSlice, if_neg h] at hn
    split at hn <;> exact Option.noConfusion hn
  · intro h
    simp only [normalizeSlice, if_pos h]

/-! ### C5: slice read examples -/

/-- C5: slice reads follow the slice normalization: on the 5-element list
[0, 1, 2, 3, 4], reading slice (1, 4) gives [1, 2, 3], reading the full
backward slice gives [4, 3, 2, 1, 0], and reading slice (1, 4) with step 2
gives [1, 3]. -/
theorem get_slice_examples :
    getSlice (⟨[0, 1, 2, 3, 4], [], false⟩ : LState Nat) ⟨some 1, some 4, none⟩ =
      Except.ok [1, 2, 3] ∧
    getSlice (⟨[0, 1, 2, 3, 4], [], false⟩ : LState Nat) ⟨none, none, some (-1)⟩ =
      Except.ok [4, 3, 2, 1, 0] ∧
    getSlice (⟨[0, 1, 2, 3, 4], [], false⟩ : LState Nat) ⟨some 1, some 4, some 2⟩ =
      Except.ok [1, 3] :=
  ⟨rfl, rfl, rfl⟩

/-! ### C1: slice delete drops one extra element at each trimmed boundary -/

/-- C1 evaluation at the failing input: deleting the slice (0, 1) from the
two-element list [a, b] should keep the complement [b], but the code trims
from stop + 1 and leaves the empty list. -/
theorem del_slice_boundary_eval :
    delSlice (⟨["a", "b"], [], false⟩ : LState String) ⟨some 0, some 1, none⟩ =
      Except.ok (⟨[], [], false⟩ : LState String) ∧
    (⟨[], [], false⟩ : LState String).store ≠ ["b"] :=
  ⟨rfl, by decide⟩

/-! ### C7: slice delete and assignment reject every explicit step -/

theorem delSlice_step_none_ne (s : LState V) (sl : Slice) (h : sl.step = none) :
    delSlice s sl ≠ Except.error Err.notImplemented := by
  unfold delSlice
  rw [if_neg (by simp [h])]
  cases hns : normalizeSlice s.store.length sl with
  | none => simp
  | some r =>
    obtain ⟨start, stop, stepAbs, forward⟩ := r
    dsimp only
    by_cases hss : start = stop
    · rw [if_pos hss]; simp
    · rw [if_neg hss]
      cases hfl : (if s.writeback = true then syncHelper s else Except.ok s) with
      | error e =>
        have he : e = Err.indexError := by
          by_cases hw : s.writeback = true
          · rw [if_pos hw] at hfl; exact syncHelper_error_eq s e hfl
          · rw [if_neg hw] at hfl; exact absurd hfl (by simp)
        subst he; simp
      | ok s1 =>
        dsimp only
        by_cases h1 : start = 0 ∧ stop = (s.store.length : Int)
        · rw [if_pos h1]; simp
        · rw [if_neg h1]
          by_cases h2 : start = 0
          · rw [if_pos h2]; simp
          · rw [if_neg h2]
            by_cases h3 : stop = (s.store.length : Int)
            · rw [if_pos h3]; simp
            · rw [if_neg h3]; simp

theorem setSlice_step_none_ne (s : LState V) (sl : Slice) (vs : List V) (h : sl.step = none) :
    setSlice s sl vs ≠ Except.error Err.notImplemented := by
  unfold setSlice
  rw [if_neg (by simp [h])]
  cases hns : normalizeSlice s.store.length sl with
  | none => simp
  | some r =>
    obtain ⟨start, stop, stepAbs, forward⟩ := r
    dsimp only
    cases hfl : (if s.writeback = true then syncHelper s else Except.ok s) with
    | error e =>
      have he : e = Err.indexError := by
        by_cases hw : s.writeback = true
        · rw [if_pos hw] at hfl; exact syncHelper_error_eq s e hfl
        · rw [if_neg hw] at hfl; exact absurd hfl (by simp)
      subst he; simp
    | ok s1 =>
      dsimp only
      cases hall : (if start = 0 then [] else lrange s1.store 0 (start - 1)) ++ vs ++
          (if stop = ((s.store.length : Nat) : Int) then [] else lrange s1.store stop (-1)) with
      | nil => simp
      | cons a t => simp

/-- C7 as amended: structural slice delete and slice assignment raise the
unsupported-operation condition exactly when the step is explicitly given
(even an explicit step of 1 or 0 is rejected), while a slice read raises the
invalid-argument condition exactly on a zero step. -/
theorem slice_step_policy (s : LState V) (sl : Slice) (vs : List V) :
    (delSlice s sl = Except.error Err.notImplemented ↔ sl.step ≠ none) ∧
    (setSlice s sl vs = Except.error Err.notImplemented ↔ sl.step ≠ none) ∧
    (getSlice s sl = Except.error Err.valueError ↔ sl.step = some 0) := by
  refine ⟨⟨fun hd hn => delSlice_step_none_ne s sl hn hd, fun hs => ?_⟩,
    ⟨fun hd hn => setSlice_step_none_ne s sl vs hn hd, fun hs => ?_⟩,
    ⟨fun hg => ?_, fun hs => ?_⟩⟩
  · unfold delSlice; rw [if_pos hs]
  · unfold setSlice; rw [if_pos hs]
  · by_contra h
    unfold getSlice at hg
    cases hns : normalizeSlice s.store.length sl with
    | none => exact h ((normalizeSlice_eq_none_iff _ _).mp hns)
    | some r =>
      obtain ⟨start, stop, stepAbs, forward⟩ := r
      rw [hns] at hg
      dsimp only at hg
      by_cases hss : start = stop
      · rw [if_pos hss] at hg; exact absurd hg (by simp)
      · rw [if_neg hss] at hg; exact absurd hg (by simp)
  · unfold getSlice
    rw [(normalizeSlice_eq_none_iff s.store.length sl).mpr hs]

/-- C7 counterexample to the claim as stated: a slice whose step is given
explicitly as 1 is rejected with the unsupported-operation condition rather
than performed normally. -/
theorem slice_step_one_rejected :
    delSlice (⟨["a", "b"], [], false⟩ : LState String) ⟨some 0, some 1, some 1⟩ =
      Except.error Err.notImplemented :=
  rfl

/-! ### C9: sync is idempotent -/

/-- C9: if sync succeeds, its result has an empty cache, and running sync
again succeeds without changing the remote state, leaving the cache empty. -/
theorem sync_idempotent (s s1 : LState V) (h : sync s = Except.ok s1) :
    sync s1 = Except.ok s1 ∧ s1.cache = [] := by
  unfold sync syncHelper at h ⊢
  cases hf : flushStore s.store s.cache with
  | error e => rw [hf] at h; exact absurd h (by simp)
  | ok st =>
    rw [hf] at h
    injection h with h2
    constructor
    · rw [← h2]
      rfl
    · rw [← h2]

/-- Witness for C9 at a concrete state with a pending cached write. -/
theorem sync_idempotent_witness :
    sync (⟨["a", "y"], [], true⟩ : LState String) =
      Except.ok (⟨["a", "y"], [], true⟩ : LState String) ∧
    (⟨["a", "y"], [], true⟩ : LState String).cache = [] :=
  sync_idempotent ⟨["x", "y"], [(0, "a")], true⟩ ⟨["a", "y"], [], true⟩ rfl

/-! ### C10: a rejected scalar overwrite leaves the cache untouched -/

/-- C10: with writeback enabled, when the remote overwrite is rejected as
out of range, scalar assignment raises IndexError and returns the state
unchanged; in particular the cache entry is never written. -/
theorem setitem_error_atomic (s : LState V) (i : Int) (v : V)
    (hwb : s.writeback = true) (hout : lset s.store i v = none) :
    setitem s i v = (Except.error Err.indexError, s) := by
  simp only [setitem, hout]

/-- Witness for C10: overwriting index 5 of a one-element list fails and the
single cached entry survives unchanged. -/
theorem setitem_error_atomic_witness :
    setitem (⟨["x"], [(0, "x")], true⟩ : LState String) 5 "q" =
      (Except.error Err.indexError, (⟨["x"], [(0, "x")], true⟩ : LState String)) :=
  setitem_error_atomic ⟨["x"], [(0, "x")], true⟩ 5 "q" rfl rfl

/-! ### C4: read-your-write for scalar indices -/

theorem lset_of_inrange (l : List V) (i : Int) (v : V)
    (h0 : 0 ≤ normalizeIndex l.length i)
    (h1 : normalizeIndex l.length i < (l.length : Int)) :
    lset l i v = some (l.set (normalizeIndex l.length i).toNat v) := by
  simp only [lset, redisIdx_eq_normalizeIndex]
  rw [if_pos ⟨h0, h1⟩]

theorem lindex_of_inrange (l : List V) (i : Int)
    (h0 : 0 ≤ normalizeIndex l.length i)
    (h1 : normalizeIndex l.length i < (l.length : Int)) :
    lindex l i = l[(normalizeIndex l.length i).toNat]? := by
  simp only [lindex, redisIdx_eq_normalizeIndex]
  rw [if_pos ⟨h0, h1⟩]

/-- C4: for a scalar index in range, scalar get right after scalar set
returns the value just written, both with and without writeback. -/
theorem set_then_get (s : LState V) (i : Int) (v : V)
    (h0 : 0 ≤ normalizeIndex s.store.length i)
    (h1 : normalizeIndex s.store.length i < (s.store.length : Int)) :
    (setitem s i v).1 = Except.ok () ∧
    (getitem (setitem s i v).2 i).map Prod.fst = Except.ok v := by
  have hset : lset s.store i v =
      some (s.store.set (normalizeIndex s.store.length i).toNat v) :=
    lset_of_inrange s.store i v h0 h1
  have hlen : (s.store.set (normalizeIndex s.store.length i).toNat v).length =
      s.store.length := List.length_set s.store _ v
  refine ⟨by simp only [setitem, hset], ?_⟩
  simp only [setitem, hset]
  by_cases hw : s.writeback = true
  · rw [if_pos hw]
    unfold getitem
    rw [if_neg (by simp [hw])]
    dsimp only
    rw [hlen]
    rw [if_neg (by omega)]
    rw [cacheGet_cacheSet_self]
    rfl
  · rw [if_neg hw]
    have hw2 : s.writeback = false := by revert hw; cases s.writeback <;> simp
    unfold getitem
    rw [if_pos (by simp [hw2])]
    dsimp only
    have hidx : lindex (s.store.set (normalizeIndex s.store.length i).toNat v) i =
        some v := by
      rw [lindex_of_inrange _ i (by rw [hlen]; exact h0) (by rw [hlen]; exact h1)]
      rw [hlen]
      exact List.getElem?_set_eq_of_lt v (by omega)
    rw [hidx]
    rfl

/-- Witness for C4 at concrete states: writeback off with a positive index,
and writeback on with a negative in-range index. -/
theorem set_then_get_witness :
    ((setitem (⟨["a", "b"], [], false⟩ : LState String) 1 "z").1 = Except.ok () ∧
     (getitem (setitem (⟨["a", "b"], [], false⟩ : LState String) 1 "z").2 1).map Prod.fst =
       Except.ok "z") ∧
    ((setitem (⟨["a", "b"], [], true⟩ : LState String) (-1) "w").1 = Except.ok () ∧
     (getitem (setitem (⟨["a", "b"], [], true⟩ : LState String) (-1) "w").2 (-1)).map Prod.fst =
       Except.ok "w") :=
  ⟨set_then_get ⟨["a", "b"], [], false⟩ 1 "z" (by decide) (by decide),
   set_then_get ⟨["a", "b"], [], true⟩ (-1) "w" (by decide) (by decide)⟩

/-! ### C2: middle delete via sentinel-and-remove -/

theorem mem_set_self (m : V) : ∀ (l : List V) (p : Nat), p < l.length → m ∈ l.set p m
  | [], p, h => absurd h (by simp)
  | a :: t, 0, _ => by rw [List.set_cons_zero]; exact List.mem_cons_self m t
  | a :: t, p + 1, h => by
    rw [List.set_cons_succ]
    exact List.mem_cons_of_mem a (mem_set_self m t p (by simpa using h))

theorem lremFirst_set_of_not_mem [DecidableEq V] (m : V) :
    ∀ (l : List V) (p : Nat), p < l.length → m ∉ l →
      lremFirst (l.set p m) m = l.take p ++ l.drop (p + 1)
  | [], p, h, _ => absurd h (by simp)
  | a :: t, 0, _, hm => by
    rw [List.set_cons_zero, lremFirst, if_pos rfl]
    rfl
  | a :: t, p + 1, h, hm => by
    rw [List.set_cons_succ, lremFirst,
      if_neg (fun he => hm (by rw [← he]; exact List.mem_cons_self a t)),
      lremFirst_set_of_not_mem m t p (by simpa using h)
        (fun hmem => hm (List.mem_cons_of_mem a hmem))]
    rfl

/-- C2: when the sentinel marker differs from every stored value, a middle
pop removes exactly the element at the normalized absolute position and no
other element. -/
theorem pop_middle_removes_exactly [DecidableEq V] (s : LState V) (index : Int) (marker : V)
    (hm : marker ∉ s.store)
    (h0 : 0 ≤ normalizeIndex s.store.length index)
    (h1 : normalizeIndex s.store.length index < (s.store.length : Int)) :
    ∃ v s2, popMiddle marker s index = Except.ok (v, s2) ∧
      s2.store = s.store.take (normalizeIndex s.store.length index).toNat ++
        s.store.drop ((normalizeIndex s.store.length index).toNat + 1) := by
  have hp : (normalizeIndex s.store.length index).toNat < s.store.length := by omega
  have hidx : lindex s.store index =
      some (s.store.get ⟨(normalizeIndex s.store.length index).toNat, hp⟩) := by
    rw [lindex_of_inrange s.store index h0 h1]
    exact List.getElem?_eq_getElem hp
  have hset := lset_of_inrange s.store index marker h0 h1
  unfold popMiddle
  rw [if_neg (by omega), hidx, hset]
  dsimp only
  refine ⟨_, _, rfl, ?_⟩
  exact lremFirst_set_of_not_mem marker s.store _ hp hm

/-- Witness for C2: deleting index 2 of [a, b, c, d] with a marker distinct
from all stored values yields [a, b, d]. -/
theorem pop_middle_removes_exactly_witness :
    ∃ v s2, popMiddle "zz" (⟨["a", "b", "c", "d"], [], false⟩ : LState String) 2 =
        Except.ok (v, s2) ∧ s2.store = ["a", "b", "d"] := by
  obtain ⟨v, s2, he, hs⟩ := pop_middle_removes_exactly
    (⟨["a", "b", "c", "d"], [], false⟩ : LState String) 2 "zz"
    (by decide) (by decide) (by decide)
  exact ⟨v, s2, he, hs.trans rfl⟩

/-! ### C3: cache renumbering on insert -/

theorem cacheGet_mapAdd1 (j : Int) :
    ∀ c : List (Int × V), cacheGet (c.map (fun q => (q.1 + 1, q.2))) (j + 1) = cacheGet c j
  | [] => rfl
  | p :: rest => by
    rw [List.map_cons, cacheGet, cacheGet]
    by_cases hp : p.1 = j
    · rw [if_pos (by dsimp only; omega), if_pos hp]
    · rw [if_neg (by dsimp only; omega), if_neg hp]
      exact cacheGet_mapAdd1 j rest

theorem cacheGet_renumberIns_lt (p j : Int) (h : j < p) :
    ∀ c : List (Int × V), cacheGet (renumberIns c p) j = cacheGet c j
  | [] => rfl
  | q :: rest => by
    have hrec := cacheGet_renumberIns_lt p j h rest
    show cacheGet ((if q.1 < p then q else (q.1 + 1, q.2)) :: renumberIns rest p) j =
      cacheGet (q :: rest) j
    by_cases hq : q.1 < p
    · rw [if_pos hq, cacheGet, cacheGet]
      by_cases hqj : q.1 = j
      · rw [if_pos hqj, if_pos hqj]
      · rw [if_neg hqj, if_neg hqj]
        exact hrec
    · rw [if_neg hq, cacheGet, cacheGet, if_neg (by dsimp only; omega), if_neg (by omega)]
      exact hrec

theorem cacheGet_renumberIns_ge (p j : Int) (h : p ≤ j) :
    ∀ c : List (Int × V), cacheGet (renumberIns c p) (j + 1) = cacheGet c j
  | [] => rfl
  | q :: rest => by
    have hrec := cacheGet_renumberIns_ge p j h rest
    show cacheGet ((if q.1 < p then q else (q.1 + 1, q.2)) :: renumberIns rest p) (j + 1) =
      cacheGet (q :: rest) j
    by_cases hq : q.1 < p
    · rw [if_pos hq, cacheGet, cacheGet, if_neg (by omega), if_neg (by omega)]
      exact hrec
    · rw [if_neg hq, cacheGet, cacheGet]
      by_cases hqj : q.1 = j
      · rw [if_pos (by dsimp only; omega), if_pos hqj]
      · rw [if_neg (by dsimp only; omega), if_neg hqj]
        exact hrec

/-- C3: with writeback on and a well-formed cache, inserting at absolute
position p rewrites the cache by the renumbering rule: p maps to the inserted
value, entries below p are unchanged, and entries at or above p are re-keyed
one higher. -/
theorem insert_cache_renumber (s : LState V) (index : Int) (value : V)
    (hwb : s.writeback = true)
    (hwf : ∀ q ∈ s.cache, 0 ≤ q.1 ∧ q.1 < (s.store.length : Int)) :
    cacheGet (insert s index value).cache (insertPos s index) = some value ∧
    (∀ j : Int, j < insertPos s index →
      cacheGet (insert s index value).cache j = cacheGet s.cache j) ∧
    (∀ j : Int, insertPos s index ≤ j →
      cacheGet (insert s index value).cache (j + 1) = cacheGet s.cache j) := by
  by_cases hz : index = 0
  · subst hz
    unfold insert insertPos
    rw [if_pos rfl, if_pos rfl]
    dsimp only
    rw [if_pos hwb]
    refine ⟨cacheGet_cacheSet_self _ _ _, fun j hj => ?_, fun j hj => ?_⟩
    · rw [cacheGet_cacheSet_ne _ _ _ _ (by omega)]
      have hL : cacheGet (s.cache.map (fun q => (q.1 + 1, q.2))) j = none :=
        cacheGet_eq_none _ j (fun q hq => by
          obtain ⟨r, hr, rfl⟩ := List.mem_map.mp hq
          have := (hwf r hr).1
          dsimp only
          omega)
      have hR : cacheGet s.cache j = none :=
        cacheGet_eq_none _ j (fun q hq => by have := (hwf q hq).1; omega)
      rw [hL, hR]
    · rw [cacheGet_cacheSet_ne _ _ _ _ (by omega)]
      exact cacheGet_mapAdd1 j s.cache
  · by_cases hm1 : index = -1
    · subst hm1
      unfold insert insertPos
      rw [if_neg hz, if_neg hz, if_pos rfl, if_pos rfl]
      dsimp only
      rw [if_pos hwb]
      have hkey : ((s.store.length : Int) + 1) + (-1) = (s.store.length : Int) := by omega
      rw [hkey]
      refine ⟨cacheGet_cacheSet_self _ _ _, fun j hj => ?_, fun j hj => ?_⟩
      · rw [cacheGet_cacheSet_ne _ _ _ _ (by omega)]
      · rw [cacheGet_cacheSet_ne _ _ _ _ (by omega)]
        have hL : cacheGet s.cache (j + 1) = none :=
          cacheGet_eq_none _ _ (fun q hq => by have := (hwf q hq).2; omega)
        have hR : cacheGet s.cache j = none :=
          cacheGet_eq_none _ _ (fun q hq => by have := (hwf q hq).2; omega)
        rw [hL, hR]
    · unfold insert insertPos
      rw [if_neg hz, if_neg hz, if_neg hm1, if_neg hm1]
      dsimp only
      rw [if_pos hwb]
      refine ⟨cacheGet_cacheSet_self _ _ _, fun j hj => ?_, fun j hj => ?_⟩
      · rw [cacheGet_cacheSet_ne _ _ _ _ (by omega)]
        exact cacheGet_renumberIns_lt _ j hj s.cache
      · rw [cacheGet_cacheSet_ne _ _ _ _ (by omega)]
        exact cacheGet_renumberIns_ge _ j hj s.cache

/-- Witness for C3: with cache (0, a), (2, c) over a 3-element store,
insert(1, b) re-keys the formerly-index-2 entry to index 3, maps index 1 to
the inserted value, and leaves index 0 unchanged. -/
theorem insert_cache_renumber_witness :
    cacheGet (insert (⟨["x", "x", "x"], [(0, "a"), (2, "c")], true⟩ : LState String) 1 "b").cache 3 =
      some "c" ∧
    cacheGet (insert (⟨["x", "x", "x"], [(0, "a"), (2, "c")], true⟩ : LState String) 1 "b").cache 1 =
      some "b" ∧
    cacheGet (insert (⟨["x", "x", "x"], [(0, "a"), (2, "c")], true⟩ : LState String) 1 "b").cache 0 =
      some "a" := by
  obtain ⟨ha, hb, hc⟩ := insert_cache_renumber
    (⟨["x", "x", "x"], [(0, "a"), (2, "c")], true⟩ : LState String) 1 "b" rfl (by decide)
  refine ⟨(hc 2 (by decide)).trans rfl, ha.trans rfl, (hb 0 (by decide)).trans rfl⟩

/-! ### C6: index() with falsy bounds -/

theorem effFrom_key_lb (c : List (Int × V)) :
    ∀ (t : List V) (k : Nat), ∀ p ∈ effFrom c k t, k ≤ p.1
  | [], k, p, hp => absurd hp (by simp [effFrom])
  | v :: t, k, p, hp => by
    rw [effFrom] at hp
    rcases List.mem_cons.mp hp with h | h
    · subst h
      exact le_refl k
    · have := effFrom_key_lb c t (k + 1) p h
      omega

theorem indexScan_eq_find [DecidableEq V] (value : V) (a b : Int) (c : List (Int × V)) :
    ∀ (t : List V) (k : Nat),
      indexScan value a b (effFrom c k t) =
        match (effFrom c k t).find? (fun p =>
            p.2 == value && decide (a ≤ (p.1 : Int)) && decide ((p.1 : Int) < b)) with
        | some p => Except.ok p.1
        | none => Except.error Err.valueError
  | [], k => rfl
  | v :: t, k => by
    have hrec := indexScan_eq_find value a b c t (k + 1)
    rw [effFrom]
    by_cases hv : (cacheGet c (k : Int)).getD v = value
    · by_cases ha : (k : Int) < a
      · rw [indexScan, if_pos hv, if_pos ha,
          List.find?_cons_of_neg _ (by simp [hv, ha]), hrec]
      · by_cases hb : b ≤ (k : Int)
        · rw [indexScan, if_pos hv, if_neg ha, if_pos hb,
            List.find?_cons_of_neg _ (by simp; omega)]
          rw [List.find?_eq_none.mpr]
          intro p hp
          have := effFrom_key_lb c t (k + 1) p hp
          simp
          omega
        · rw [indexScan, if_pos hv, if_neg ha, if_neg hb,
            List.find?_cons_of_pos _ (by simp [hv]; omega)]
    · rw [indexScan, if_neg hv, List.find?_cons_of_neg _ (by simp [hv]), hrec]

/-- C6 as amended: index(value, start, stop) applies Python falsy defaulting
to its bounds (an unspecified or zero start becomes 0, an unspecified or zero
stop becomes the current length), normalizes them, and returns the smallest
absolute position inside the normalized half-open range whose cache-aware
value equals the argument, failing with the not-found condition otherwise. -/
theorem indexOp_eq_indexSpec [DecidableEq V] (s : LState V) (value : V)
    (start stop : Option Int) :
    indexOp s value start stop = indexSpec s value start stop := by
  unfold indexOp indexSpec
  exact indexScan_eq_find value _ _ s.cache s.store 0

/-- C6 counterexample to the claim as stated: searching with an explicit
start and stop of 0 should fail with the not-found condition on an empty
normalized range, but the falsy stop is replaced by the length and the value
is found at index 0. -/
theorem index_explicit_zero_stop_found :
    indexOp (⟨["a"], [], false⟩ : LState String) "a" (some 0) (some 0) = Except.ok 0 ∧
    indexOp (⟨["a"], [], false⟩ : LState String) "a" (some 0) (some 0) ≠
      Except.error Err.valueError := by
  refine ⟨rfl, fun h => ?_⟩
  have h0 : indexOp (⟨["a"], [], false⟩ : LState String) "a" (some 0) (some 0) =
      Except.ok 0 := rfl
  rw [h0] at h
  exact Except.noConfusion h

/-! ### C8: preservation of cache well-formedness -/

theorem lrange_zero_negone (l : List V) : lrange l 0 (-1) = l := by
  simp only [lrange, redisIdx]
  have h1 : ¬ ((0 : Int) < 0) := by omega
  have h2 : (-1 : Int) < 0 := by omega
  rw [if_neg h1, if_pos h2, max_self]
  by_cases h : l.length = 0
  · rw [if_pos (by omega)]
    exact (List.length_eq_zero.mp h).symm
  · rw [if_neg (by omega)]
    have h3 : (-1 + (l.length : Int) - 0 + 1).toNat = l.length := by omega
    rw [h3]
    simp

theorem lrange_zero_nonneg (l : List V) (e : Int) (h : 0 ≤ e) :
    lrange l 0 e = l.take (e + 1).toNat := by
  simp only [lrange, redisIdx]
  have h1 : ¬ ((0 : Int) < 0) := by omega
  have h2 : ¬ (e < 0) := by omega
  rw [if_neg h1, if_neg h2, max_self]
  by_cases hn : l.length = 0
  · rw [if_pos (by omega)]
    rw [List.length_eq_zero.mp hn]
    simp
  · rw [if_neg (by omega)]
    have h3 : (e - 0 + 1) = e + 1 := by ring
    rw [h3]
    simp

theorem lrange_nonneg_negone (l : List V) (a : Int) (h : 0 ≤ a) :
    lrange l a (-1) = l.drop a.toNat := by
  simp only [lrange, redisIdx]
  have h1 : ¬ (a < 0) := by omega
  have h2 : (-1 : Int) < 0 := by omega
  rw [if_neg h1, if_pos h2, max_eq_left h]
  by_cases hn : (l.length : Int) ≤ a
  · rw [if_pos (by omega)]
    exact (List.drop_eq_nil_of_le (by omega)).symm
  · rw [if_neg (by omega)]
    apply List.take_of_length_le
    rw [List.length_drop]
    omega

theorem lset_some_inv (l : List V) (i : Int) (v : V) (st : List V)
    (h : lset l i v = some st) :
    0 ≤ normalizeIndex l.length i ∧ normalizeIndex l.length i < (l.length : Int) ∧
      st = l.set (normalizeIndex l.length i).toNat v := by
  simp only [lset, redisIdx_eq_normalizeIndex] at h
  by_cases hc : 0 ≤ normalizeIndex l.length i ∧ normalizeIndex l.length i < (l.length : Int)
  · rw [if_pos hc] at h
    exact ⟨hc.1, hc.2, (Option.some_inj.mp h).symm⟩
  · rw [if_neg hc] at h
    exact absurd h (by simp)

theorem length_lremFirst_of_mem [DecidableEq V] (m : V) :
    ∀ l : List V, m ∈ l → (lremFirst l m).length + 1 = l.length
  | [], h => absurd h (by simp)
  | a :: t, h => by
    rw [lremFirst]
    by_cases ha : a = m
    · rw [if_pos ha]
      rfl
    · have hmt : m ∈ t := by
        rcases List.mem_cons.mp h with h2 | h2
        · exact absurd h2.symm ha
        · exact h2
      rw [if_neg ha, List.length_cons, List.length_cons,
        length_lremFirst_of_mem m t hmt]

theorem mem_cacheSet {c : List (Int × V)} {k : Int} {v : V} {q : Int × V}
    (h : q ∈ cacheSet c k v) : q = (k, v) ∨ q ∈ c := by
  rcases List.mem_cons.mp h with h2 | h2
  · exact Or.inl h2
  · exact Or.inr (List.mem_of_mem_filter h2)

theorem mem_renumberDel {c : List (Int × V)} {p : Int} {q : Int × V}
    (h : q ∈ renumberDel c p) :
    ∃ r ∈ c, (r.1 < p ∧ q = r) ∨ (p < r.1 ∧ q = (r.1 - 1, r.2)) := by
  obtain ⟨r, hr, hq⟩ := List.mem_filterMap.mp h
  refine ⟨r, hr, ?_⟩
  by_cases h1 : r.1 < p
  · rw [if_pos h1] at hq
    exact Or.inl ⟨h1, (Option.some_inj.mp hq).symm⟩
  · rw [if_neg h1] at hq
    by_cases h2 : p < r.1
    · rw [if_pos h2] at hq
      exact Or.inr ⟨h2, (Option.some_inj.mp hq).symm⟩
    · rw [if_neg h2] at hq
      exact absurd hq (by simp)

theorem extendCache_bound (B : Int) :
    ∀ (t : List V) (c : List (Int × V)) (k : Int),
      (∀ q ∈ c, 0 ≤ q.1 ∧ q.1 < B) → 0 ≤ k → k + (t.length : Int) ≤ B →
      ∀ q ∈ extendCache c k t, 0 ≤ q.1 ∧ q.1 < B
  | [], c, k, hc, _, _, q, hq => hc q hq
  | v :: t, c, k, hc, hk, hb, q, hq => by
    have hb0 : k + (t.length : Int) + 1 ≤ B := by
      have hcast : ((v :: t).length : Int) = (t.length : Int) + 1 := by
        push_cast [List.length_cons]
        ring
      omega
    refine extendCache_bound B t (cacheSet c k v) (k + 1) (fun r hr => ?_)
      (by omega) (by omega) q hq
    rcases mem_cacheSet hr with h2 | h2
    · subst h2
      exact ⟨hk, by omega⟩
    · exact hc r h2

theorem WF_of_cache_nil (s : LState V) (h : s.cache = []) : WF s :=
  ⟨fun _ => h, fun q hq => absurd hq (by rw [h]; simp)⟩

theorem insert_store_len (l : List V) (ci : Int) (v : V) (h0 : 0 ≤ ci)
    (h1 : ci ≤ (l.length : Int)) :
    (l.length : Int) + 1 ≤ ((ltrim l 0 (ci - 1) ++ v :: lrange l ci (-1)).length : Int) := by
  rw [List.length_append, List.length_cons]
  by_cases hz : ci = 0
  · subst hz
    rw [show (0 : Int) - 1 = -1 from by ring]
    rw [ltrim, lrange_zero_negone]
    push_cast
    omega
  · rw [ltrim, lrange_zero_nonneg l (ci - 1) (by omega), lrange_nonneg_negone l ci h0]
    rw [show ci - 1 + 1 = ci from by ring]
    rw [List.length_take, List.length_drop]
    push_cast
    omega

theorem WF_append (s : LState V) (v : V) (h : WF s) : WF (append s v) := by
  obtain ⟨h1, h2⟩ := h
  unfold append
  constructor
  · intro hwb
    dsimp only at hwb ⊢
    simp only [hwb, Bool.false_eq_true, if_false]
    exact h1 hwb
  · intro q hq
    dsimp only at hq ⊢
    simp only [List.length_append, List.length_cons, List.length_nil] at hq ⊢
    by_cases hw : s.writeback = true
    · rw [if_pos hw] at hq
      rcases mem_cacheSet hq with hq2 | hq2
      · subst hq2
        constructor
        · dsimp only
          omega
        · dsimp only
          push_cast
          omega
      · have := h2 q hq2
        push_cast
        omega
    · rw [if_neg hw] at hq
      have := h2 q hq
      push_cast
      omega

theorem WF_clear (s : LState V) (h : WF s) : WF (clear s) := by
  obtain ⟨h1, h2⟩ := h
  apply WF_of_cache_nil
  unfold clear
  dsimp only
  by_cases hw : s.writeback = true
  · rw [if_pos hw]
  · rw [if_neg hw]
    exact h1 (by revert hw; cases s.writeback <;> simp)

theorem syncHelper_ok_cache (s s2 : LState V) (h : syncHelper s = Except.ok s2) :
    s2.cache = [] := by
  unfold syncHelper at h
  cases hf : flushStore s.store s.cache with
  | error e => rw [hf] at h; exact absurd h (by simp)
  | ok st =>
    rw [hf] at h
    injection h with h2
    rw [← h2]

theorem WF_sync (s s2 : LState V) (h : sync s = Except.ok s2) : WF s2 :=
  WF_of_cache_nil s2 (syncHelper_ok_cache s s2 h)

theorem WF_extend (s : LState V) (vs : List V) (s2 : LState V) (h : WF s)
    (he : extend s vs = Except.ok s2) : WF s2 := by
  obtain ⟨h1, h2⟩ := h
  unfold extend at he
  cases vs with
  | nil => exact absurd he (by simp)
  | cons v t =>
    dsimp only at he
    have hs2 : _ = s2 := Except.ok.inj he
    subst hs2
    constructor
    · intro hwb
      dsimp only at hwb ⊢
      simp only [hwb, Bool.false_eq_true, if_false]
      exact h1 hwb
    · intro q hq
      dsimp only at hq ⊢
      by_cases hw : s.writeback = true
      · rw [if_pos hw] at hq
        refine extendCache_bound _ (v :: t) s.cache _ (fun r hr => ?_) ?_ ?_ q hq
        · have := h2 r hr
          rw [List.length_append]
          push_cast
          omega
        · omega
        · rw [List.length_append]
          push_cast
          omega
      · rw [if_neg hw] at hq
        have := h2 q hq
        rw [List.length_append]
        push_cast
        omega

theorem WF_setitem (s : LState V) (i : Int) (v : V) (h : WF s) :
    WF (setitem s i v).2 := by
  obtain ⟨h1, h2⟩ := h
  unfold setitem
  cases hl : lset s.store i v with
  | none => exact ⟨h1, h2⟩
  | some st =>
    obtain ⟨hb0, hb1, rfl⟩ := lset_some_inv s.store i v st hl
    dsimp only
    constructor
    · intro hwb
      dsimp only at hwb ⊢
      simp only [hwb, Bool.false_eq_true, if_false]
      exact h1 hwb
    · intro q hq
      dsimp only at hq ⊢
      rw [List.length_set]
      by_cases hw : s.writeback = true
      · rw [if_pos hw] at hq
        rcases mem_cacheSet hq with hq2 | hq2
        · subst hq2
          exact ⟨hb0, hb1⟩
        · exact h2 q hq2
      · rw [if_neg hw] at hq
        exact h2 q hq

theorem WF_getitem (s : LState V) (i : Int) (v : V) (s2 : LState V) (h : WF s)
    (hg : getitem s i = Except.ok (v, s2)) : WF s2 := by
  obtain ⟨h1, h2⟩ := h
  unfold getitem at hg
  by_cases hw : s.writeback = false
  · rw [if_pos hw] at hg
    cases hl : lindex s.store i with
    | none => rw [hl] at hg; exact absurd hg (by simp)
    | some v0 =>
      rw [hl] at hg
      obtain ⟨-, rfl⟩ : v0 = v ∧ s = s2 := by simpa using hg
      exact ⟨h1, h2⟩
  · rw [if_neg hw] at hg
    dsimp only at hg
    by_cases hb : normalizeIndex s.store.length i < 0 ∨
        (s.store.length : Int) ≤ normalizeIndex s.store.length i
    · rw [if_pos hb] at hg
      exact absurd hg (by simp)
    · rw [if_neg hb] at hg
      cases hc : cacheGet s.cache (normalizeIndex s.store.length i) with
      | some vc =>
        rw [hc] at hg
        obtain ⟨-, rfl⟩ : vc = v ∧ s = s2 := by simpa using hg
        exact ⟨h1, h2⟩
      | none =>
        rw [hc] at hg
        cases hl : lindex s.store i with
        | none => rw [hl] at hg; exact absurd hg (by simp)
        | some v0 =>
          rw [hl] at hg
          obtain ⟨-, rfl⟩ : v0 = v ∧ _ = s2 := by simpa using hg
          constructor
          · intro hwb
            dsimp only at hwb
            exact absurd hwb hw
          · intro q hq
            dsimp only at hq ⊢
            rcases mem_cacheSet hq with hq2 | hq2
            · subst hq2
              constructor
              · dsimp only
                omega
              · dsimp only
                omega
            · exact h2 q hq2

theorem WF_popLeft (s : LState V) (v : V) (s2 : LState V) (h : WF s)
    (hp : popLeft s = Except.ok (v, s2)) : WF s2 := by
  obtain ⟨h1, h2⟩ := h
  unfold popLeft at hp
  cases hs : s.store with
  | nil => rw [hs] at hp; exact absurd hp (by simp)
  | cons a t =>
    rw [hs] at hp
    dsimp only at hp
    obtain ⟨-, rfl⟩ : _ ∧ _ = s2 := by simpa using hp
    have hn : s.store.length = t.length + 1 := by rw [hs]; rfl
    constructor
    · intro hwb
      dsimp only at hwb ⊢
      simp only [hwb, Bool.false_eq_true, if_false]
      exact h1 hwb
    · intro q hq
      dsimp only at hq ⊢
      by_cases hw : s.writeback = true
      · rw [if_pos hw] at hq
        obtain ⟨r, hr, rfl⟩ := List.mem_map.mp hq
        have hrc : r ∈ s.cache ∧ r.1 ≠ 0 := by
          have := List.mem_filter.mp hr
          exact ⟨this.1, by simpa using this.2⟩
        have := h2 r hrc.1
        have hne := hrc.2
        dsimp only
        constructor <;> omega
      · rw [if_neg hw] at hq
        have := h2 q hq
        have hca : s.cache = [] := h1 (by revert hw; cases s.writeback <;> simp)
        rw [hca] at hq
        exact absurd hq (by simp)

theorem WF_popRight (s : LState V) (v : V) (s2 : LState V) (h : WF s)
    (hp : popRight s = Except.ok (v, s2)) : WF s2 := by
  obtain ⟨h1, h2⟩ := h
  unfold popRight at hp
  dsimp only at hp
  by_cases hn : s.store.length = 0
  · rw [if_pos hn] at hp
    exact absurd hp (by simp)
  · rw [if_neg hn] at hp
    cases hl : s.store.getLast? with
    | none => rw [hl] at hp; exact absurd hp (by simp)
    | some v0 =>
      rw [hl] at hp
      obtain ⟨-, rfl⟩ : _ ∧ _ = s2 := by simpa using hp
      have hidx : normalizeIndex s.store.length (-1) = (s.store.length : Int) - 1 := by
        unfold normalizeIndex
        rw [if_neg (by omega)]
        ring
      constructor
      · intro hwb
        dsimp only at hwb ⊢
        simp only [hwb, Bool.false_eq_true, if_false]
        exact h1 hwb
      · intro q hq
        dsimp only at hq ⊢
        rw [List.length_dropLast]
        by_cases hw : s.writeback = true
        · rw [if_pos hw] at hq
          have hqc := List.mem_filter.mp hq
          have := h2 q hqc.1
          have hne : q.1 ≠ normalizeIndex s.store.length (-1) := by simpa using hqc.2
          rw [hidx] at hne
          constructor
          · omega
          · omega
        · rw [if_neg hw] at hq
          have hca : s.cache = [] := h1 (by revert hw; cases s.writeback <;> simp)
          rw [hca] at hq
          exact absurd hq (by simp)

theorem WF_popMiddle [DecidableEq V] (marker : V) (s : LState V) (i : Int) (v : V)
    (s2 : LState V) (h : WF s) (hp : popMiddle marker s i = Except.ok (v, s2)) : WF s2 := by
  obtain ⟨h1, h2⟩ := h
  unfold popMiddle at hp
  dsimp only at hp
  by_cases hb : normalizeIndex s.store.length i < 0 ∨
      (s.store.length : Int) ≤ normalizeIndex s.store.length i
  · rw [if_pos hb] at hp
    exact absurd hp (by simp)
  · rw [if_neg hb] at hp
    cases hl : lindex s.store i with
    | none => rw [hl] at hp; exact absurd hp (by simp)
    | some v0 =>
      rw [hl] at hp
      cases hset : lset s.store i marker with
      | none => rw [hset] at hp; exact absurd hp (by simp)
      | some st1 =>
        rw [hset] at hp
        dsimp only at hp
        obtain ⟨-, rfl⟩ : _ ∧ _ = s2 := by simpa using hp
        obtain ⟨hb0, hb1, rfl⟩ := lset_some_inv s.store i marker st1 hset
        have hmem : marker ∈ s.store.set (normalizeIndex s.store.length i).toNat marker :=
          mem_set_self marker s.store _ (by omega)
        have hlen2 : (lremFirst
            (s.store.set (normalizeIndex s.store.length i).toNat marker) marker).length + 1 =
            s.store.length := by
          rw [length_lremFirst_of_mem marker _ hmem, List.length_set]
        constructor
        · intro hwb
          dsimp only at hwb ⊢
          simp only [hwb, Bool.false_eq_true, if_false]
          exact h1 hwb
        · intro q hq
          dsimp only at hq ⊢
          by_cases hw : s.writeback = true
          · rw [if_pos hw] at hq
            obtain ⟨r, hr, hcase⟩ := mem_renumberDel hq
            have := h2 r hr
            rcases hcase with ⟨hlt, rfl⟩ | ⟨hgt, rfl⟩
            · constructor
              · omega
              · omega
            · dsimp only
              constructor
              · omega
              · omega
          · rw [if_neg hw] at hq
            have hca : s.cache = [] := h1 (by revert hw; cases s.writeback <;> simp)
            rw [hca] at hq
            exact absurd hq (by simp)

theorem WF_popAt [DecidableEq V] (marker : V) (s : LState V) (i : Int) (v : V)
    (s2 : LState V) (h : WF s) (hp : popAt marker s i = Except.ok (v, s2)) : WF s2 := by
  unfold popAt at hp
  by_cases h0 : i = 0
  · rw [if_pos h0] at hp
    exact WF_popLeft s v s2 h hp
  · rw [if_neg h0] at hp
    by_cases h1 : i = -1
    · rw [if_pos h1] at hp
      exact WF_popRight s v s2 h hp
    · rw [if_neg h1] at hp
      exact WF_popMiddle marker s i v s2 h hp

theorem flush_ite_ok_cache (s s1 : LState V) (h : WF s)
    (hfl : (if s.writeback = true then syncHelper s else Except.ok s) = Except.ok s1) :
    s1.cache = [] := by
  by_cases hw : s.writeback = true
  · rw [if_pos hw] at hfl
    exact syncHelper_ok_cache s s1 hfl
  · rw [if_neg hw] at hfl
    have : s = s1 := Except.ok.inj hfl
    rw [← this]
    exact h.1 (by revert hw; cases s.writeback <;> simp)

theorem WF_delSlice (s : LState V) (sl : Slice) (s2 : LState V) (h : WF s)
    (hd : delSlice s sl = Except.ok s2) : WF s2 := by
  unfold delSlice at hd
  by_cases hstep : sl.step ≠ none
  · rw [if_pos hstep] at hd
    exact absurd hd (by simp)
  · rw [if_neg hstep] at hd
    cases hns : normalizeSlice s.store.length sl with
    | none => rw [hns] at hd; exact absurd hd (by simp)
    | some r =>
      obtain ⟨start, stop, stepAbs, fwd⟩ := r
      rw [hns] at hd
      dsimp only at hd
      by_cases hss : start = stop
      · rw [if_pos hss] at hd
        have : s = s2 := Except.ok.inj hd
        rw [← this]
        exact h
      · rw [if_neg hss] at hd
        cases hfl : (if s.writeback = true then syncHelper s else Except.ok s) with
        | error e => rw [hfl] at hd; exact absurd hd (by simp)
        | ok s1 =>
          rw [hfl] at hd
          have hc1 : s1.cache = [] := flush_ite_ok_cache s s1 h hfl
          dsimp only at hd
          by_cases hb1 : start = 0 ∧ stop = (s.store.length : Int)
          · rw [if_pos hb1] at hd
            have : clear s1 = s2 := Except.ok.inj hd
            rw [← this]
            apply WF_of_cache_nil
            unfold clear
            dsimp only
            by_cases hw1 : s1.writeback = true
            · rw [if_pos hw1]
            · rw [if_neg hw1]
              exact hc1
          · rw [if_neg hb1] at hd
            by_cases hb2 : start = 0
            · rw [if_pos hb2] at hd
              have : _ = s2 := Except.ok.inj hd
              rw [← this]
              exact WF_of_cache_nil _ hc1
            · rw [if_neg hb2] at hd
              by_cases hb3 : stop = (s.store.length : Int)
              · rw [if_pos hb3] at hd
                have : _ = s2 := Except.ok.inj hd
                rw [← this]
                exact WF_of_cache_nil _ hc1
              · rw [if_neg hb3] at hd
                have : _ = s2 := Except.ok.inj hd
                rw [← this]
                exact WF_of_cache_nil _ hc1

theorem WF_setSlice (s : LState V) (sl : Slice) (vs : List V) (s2 : LState V) (h : WF s)
    (hd : setSlice s sl vs = Except.ok s2) : WF s2 := by
  unfold setSlice at hd
  by_cases hstep : sl.step ≠ none
  · rw [if_pos hstep] at hd
    exact absurd hd (by simp)
  · rw [if_neg hstep] at hd
    cases hns : normalizeSlice s.store.length sl with
    | none => rw [hns] at hd; exact absurd hd (by simp)
    | some r =>
      obtain ⟨start, stop, stepAbs, fwd⟩ := r
      rw [hns] at hd
      dsimp only at hd
      cases hfl : (if s.writeback = true then syncHelper s else Except.ok s) with
      | error e => rw [hfl] at hd; exact absurd hd (by simp)
      | ok s1 =>
        rw [hfl] at hd
        have hc1 : s1.cache = [] := flush_ite_ok_cache s s1 h hfl
        dsimp only at hd
        cases hall : (if start = 0 then [] else lrange s1.store 0 (start - 1)) ++ vs ++
            (if stop = ((s.store.length : Nat) : Int) then []
             else lrange s1.store stop (-1)) with
        | nil =>
          rw [hall] at hd
          exact absurd hd (by simp)
        | cons a t =>
          rw [hall] at hd
          have : _ = s2 := Except.ok.inj hd
          rw [← this]
          exact WF_of_cache_nil _ hc1

theorem WF_insert (s : LState V) (i : Int) (v : V) (h : WF s) (hpre : insertPre s i) :
    WF (insert s i v) := by
  obtain ⟨h1, h2⟩ := h
  by_cases hz : i = 0
  · subst hz
    unfold insert
    rw [if_pos rfl]
    constructor
    · intro hwb
      dsimp only at hwb ⊢
      simp only [hwb, Bool.false_eq_true, if_false]
      exact h1 hwb
    · intro q hq
      dsimp only at hq ⊢
      simp only [List.length_cons]
      by_cases hw : s.writeback = true
      · rw [if_pos hw] at hq
        rcases mem_cacheSet hq with hq2 | hq2
        · subst hq2
          dsimp only
          constructor
          · omega
          · push_cast
            omega
        · obtain ⟨r, hr, rfl⟩ := List.mem_map.mp hq2
          have := h2 r hr
          dsimp only
          push_cast
          omega
      · rw [if_neg hw] at hq
        have := h2 q hq
        push_cast
        omega
  · by_cases hm : i = -1
    · subst hm
      unfold insert
      rw [if_neg hz, if_pos rfl]
      constructor
      · intro hwb
        dsimp only at hwb ⊢
        simp only [hwb, Bool.false_eq_true, if_false]
        exact h1 hwb
      · intro q hq
        dsimp only at hq ⊢
        simp only [List.length_append, List.length_cons, List.length_nil]
        by_cases hw : s.writeback = true
        · rw [if_pos hw] at hq
          rcases mem_cacheSet hq with hq2 | hq2
          · subst hq2
            dsimp only
            constructor
            · omega
            · push_cast
              omega
          · have := h2 q hq2
            push_cast
            omega
        · rw [if_neg hw] at hq
          have := h2 q hq
          push_cast
          omega
    · unfold insert
      rw [if_neg hz, if_neg hm]
      have hci : 0 ≤ normalizeIndex s.store.length i ∧
          normalizeIndex s.store.length i ≤ (s.store.length : Int) := by
        rcases hpre with hp | hp | hp
        · exact absurd hp hz
        · exact absurd hp hm
        · exact hp
      have hlen := insert_store_len s.store (normalizeIndex s.store.length i) v hci.1 hci.2
      constructor
      · intro hwb
        dsimp only at hwb ⊢
        simp only [hwb, Bool.false_eq_true, if_false]
        exact h1 hwb
      · intro q hq
        dsimp only at hq ⊢
        by_cases hw : s.writeback = true
        · rw [if_pos hw] at hq
          rcases mem_cacheSet hq with hq2 | hq2
          · subst hq2
            dsimp only
            constructor
            · omega
            · omega
          · obtain ⟨r, hr, rfl⟩ := List.mem_map.mp hq2
            have := h2 r hr
            by_cases hrp : r.1 < normalizeIndex s.store.length i
            · rw [if_pos hrp]
              constructor
              · omega
              · omega
            · rw [if_neg hrp]
              dsimp only
              constructor
              · omega
              · omega
        · rw [if_neg hw] at hq
          have := h2 q hq
          constructor
          · omega
          · omega

/-- C8 as amended: cache well-formedness (every cached key a valid absolute
index into the current remote length, denoting the authoritative overlay
value there) is preserved by every public operation, provided each insert
targets a normalized position within [0, length]. -/
theorem op_preserves_wf [DecidableEq V] (marker : V) (op : Op V) (s s2 : LState V)
    (hwf : WF s) (hpre : preOp op s) (h : applyOp marker op s = Except.ok s2) : WF s2 := by
  cases op with
  | appendV v =>
    have : append s v = s2 := Except.ok.inj h
    rw [← this]
    exact WF_append s v hwf
  | insertV i v =>
    have : insert s i v = s2 := Except.ok.inj h
    rw [← this]
    exact WF_insert s i v hwf hpre
  | setIdx i v =>
    simp only [applyOp] at h
    have hwf2 := WF_setitem s i v hwf
    rcases hse : setitem s i v with ⟨fst, snd⟩
    rw [hse] at h hwf2
    cases fst with
    | ok u =>
      dsimp only at h hwf2
      have : snd = s2 := Except.ok.inj h
      rw [← this]
      exact hwf2
    | error e =>
      dsimp only at h
      exact absurd h (by simp)
  | getIdx i =>
    have h : (getitem s i).map Prod.snd = Except.ok s2 := h
    cases hg : getitem s i with
    | error e =>
      rw [hg] at h
      exact absurd h (by simp [Except.map])
    | ok p =>
      rw [hg] at h
      obtain ⟨v, s3⟩ := p
      have h3 : s3 = s2 := Except.ok.inj h
      rw [← h3]
      exact WF_getitem s i v s3 hwf hg
  | popIdx i =>
    have h : (popAt marker s i).map Prod.snd = Except.ok s2 := h
    cases hp : popAt marker s i with
    | error e =>
      rw [hp] at h
      exact absurd h (by simp [Except.map])
    | ok p =>
      rw [hp] at h
      obtain ⟨v, s3⟩ := p
      have h3 : s3 = s2 := Except.ok.inj h
      rw [← h3]
      exact WF_popAt marker s i v s3 hwf hp
  | getSliceV sl =>
    have h : (getSlice s sl).map (fun _ => s) = Except.ok s2 := h
    cases hg : getSlice s sl with
    | error e =>
      rw [hg] at h
      exact absurd h (by simp [Except.map])
    | ok r =>
      rw [hg] at h
      have h3 : s = s2 := Except.ok.inj h
      rw [← h3]
      exact hwf
  | setSliceV sl vs => exact WF_setSlice s sl vs s2 hwf h
  | delSliceV sl => exact WF_delSlice s sl s2 hwf h
  | extendV vs => exact WF_extend s vs s2 hwf h
  | syncV => exact WF_sync s s2 h
  | clearV =>
    have : clear s = s2 := Except.ok.inj h
    rw [← this]
    exact WF_clear s hwf

/-- C8 counterexample to the claim as stated: inserting at index 5 of a
one-element list with writeback on caches the value under key 5, which is not
a valid absolute index into the resulting two-element store. -/
theorem insert_out_of_range_breaks_wf :
    applyOp "m" (Op.insertV 5 "b") (⟨["x"], [], true⟩ : LState String) =
      Except.ok (⟨["x", "b"], [(5, "b")], true⟩ : LState String) ∧
    ¬ WF (⟨["x", "b"], [(5, "b")], true⟩ : LState String) :=
  ⟨rfl, by decide⟩

/-- Witness for C8: appending to a well-formed state with one cached entry
yields a well-formed state again. -/
theorem op_preserves_wf_witness :
    WF (⟨["x", "b"], [(1, "b"), (0, "a")], true⟩ : LState String) :=
  op_preserves_wf "m" (Op.appendV "b") ⟨["x"], [(0, "a")], true⟩
    ⟨["x", "b"], [(1, "b"), (0, "a")], true⟩ (by decide) trivial rfl

end RedisList
